import Mathlib

/-!
Shallow embedding of the SHAMap synchronization core
(src/src/ripple/shamap/impl/SHAMapSync.cpp) and proofs about it.

Conventions of the embedding:
* 256-bit hashes and keys are modelled as `Nat` (a zero hash denotes the
  "unknown/empty root" exactly as in the source).
* A `SHAMapNodeID` is modelled as its nibble path from the root, a
  `List Nat`; the depth is the length of the path.
* The backing store's answer for each child hash is recorded in the child
  slot itself (`Slot`): `hit` means the node is resident or synchronously
  fetchable, `pendingHit`/`pendingMiss` mean an asynchronous read is
  registered and will succeed/fail, `miss` means the store lacks the node.
  Quantifying over trees therefore quantifies over all store and sync-filter
  behaviours.
* External side effects (journal logging, `filter->gotNode`, the store-level
  `canonicalize`) have no observable effect on the values the claims speak
  about and are not modelled beyond comments.
* Iterative loops from the source are embedded with an explicit stack and a
  fuel parameter; `none` means the fuel ran out (the C++ loops terminate on
  finite trees, fuel merely keeps the embedding total).
-/

namespace SHAMapSync

/-- Map synchronization state (`SHAMapState` in the source, spec section 6). -/
inductive MapState where
  | Synching
  | Valid
  | Invalid
deriving DecidableEq, Repr

/-- Result of the node grafting operations (`SHAMapAddNode` in the source). -/
inductive AddResult where
  | duplicate
  | invalid
  | useful
deriving DecidableEq, Repr

/-- One of the 16 child slots of an inner node; `α` is the node type.
A non-empty slot records the child hash (`getChildHash`) together with how
the backing store answers for that hash: `hit` = resident/immediately
fetchable, `pendingHit` = asynchronous read that will succeed,
`pendingMiss` = asynchronous read that will fail, `miss` = absent. -/
inductive Slot (α : Type) where
  | empty
  | hit (chash : Nat) (node : α)
  | pendingHit (chash : Nat) (node : α)
  | pendingMiss (chash : Nat)
  | miss (chash : Nat)
deriving Repr

/-- A SHAMap tree node: a leaf (`SHAMapTreeNode`) with its hash and item key,
or an inner node (`SHAMapInnerNode`) with its hash, full-below generation tag
(`fullBelowGen_`, 0 = not proven), optional v2 identity (the own depth/key a
`SHAMapInnerNodeV2` carries, encoded as a nibble path) and 16 child slots. -/
inductive Node where
  | leaf (h : Nat) (key : List Nat)
  | inner (h : Nat) (fb : Nat) (v2id : Option (List Nat)) (slots : List (Slot Node))

namespace Node

/-- Content hash of a node (`getNodeHash`). -/
def hash : Node → Nat
  | leaf h _ => h
  | inner h _ _ _ => h

/-- Whether the node is an inner node (`isInner`). -/
def isInner : Node → Bool
  | leaf _ _ => false
  | inner _ _ _ _ => true

/-- Whether the node is a leaf (`isLeaf`). -/
def isLeaf : Node → Bool
  | leaf _ _ => true
  | inner _ _ _ _ => false

/-- Full-below generation tag of an inner node (0 for leaves,
which are "their own full-below"). -/
def fbGen : Node → Nat
  | leaf _ _ => 0
  | inner _ fb _ _ => fb

/-- Child slots of a node (empty for leaves). -/
def slots : Node → List (Slot Node)
  | leaf _ _ => []
  | inner _ _ _ s => s

/-- Whether the node is a `SHAMapInnerNodeV2` (carries its own depth/key). -/
def isV2 : Node → Bool
  | inner _ _ (some _) _ => true
  | _ => false

/-- The v2 identity of a node, when it has one. -/
def v2path : Node → Option (List Nat)
  | inner _ _ o _ => o
  | leaf _ _ => none

end Node

namespace Slot

/-- Child hash stored in a slot (`getChildHash`); 0 for an empty slot. -/
def chash : Slot Node → Nat
  | empty => 0
  | hit h _ => h
  | pendingHit h _ => h
  | pendingMiss h => h
  | miss h => h

/-- Whether the slot is an empty branch (`isEmptyBranch`). -/
def isEmptyBranch : Slot Node → Bool
  | empty => true
  | _ => false

end Slot

/-- Branch taken in a slot list, treating an out-of-range index as empty. -/
def slotAt (s : List (Slot Node)) (branch : Nat) : Slot Node :=
  (s.get? branch).getD Slot.empty

/-- Synchronous descent/fetch (`descendThrow`, `descendNoStore`,
`fetchNodeNT`, and `descend` in the source walk).
Modelled from the spec: `fetch(hash)` returns the node when the store holds
it (a registered asynchronous read that will succeed also finds it) and
nothing otherwise. -/
def descendSync : Slot Node → Option Node
  | Slot.hit _ n => some n
  | Slot.pendingHit _ n => some n
  | _ => none

/-- Asynchronous descent (`descendAsync` in the source).
Modelled from the spec: `prefetch(hash)` yields hit (the node), pending
(`none` with the pending flag set), or miss (`none`, flag clear). -/
def descendAsync : Slot Node → Option Node × Bool
  | Slot.hit _ n => (some n, false)
  | Slot.pendingHit _ _ => (none, true)
  | Slot.pendingMiss _ => (none, true)
  | _ => (none, false)

/-- Look up the node at a nibble path, descending only through slots whose
node is resident (`hit`). -/
def Node.getAt : Node → List Nat → Option Node
  | n, [] => some n
  | Node.leaf _ _, _ :: _ => none
  | Node.inner _ _ _ s, b :: p =>
    match slotAt s b with
    | Slot.hit _ c => Node.getAt c p
    | _ => none

/-- Set the full-below generation tag of the inner node at the given path
(`setFullBelowGen`), leaving the tree unchanged if the path is invalid. -/
def Node.withFB : Node → List Nat → Nat → Node
  | Node.leaf h k, _, _ => Node.leaf h k
  | Node.inner h _ v s, [], g => Node.inner h g v s
  | Node.inner h fb v s, b :: p, g =>
    match slotAt s b with
    | Slot.hit ch c => Node.inner h fb v (s.set b (Slot.hit ch (Node.withFB c p g)))
    | _ => Node.inner h fb v s

/-- Install the completed asynchronous read at (parent path, branch) into the
parent (`parent->canonicalizeChild (branch, node)` after a successful
`fetchNodeNT`): a `pendingHit` slot becomes a `hit` slot. -/
def Node.canonChild : Node → List Nat → Nat → Node
  | Node.leaf h k, _, _ => Node.leaf h k
  | Node.inner h fb v s, [], branch =>
    match slotAt s branch with
    | Slot.pendingHit ch c => Node.inner h fb v (s.set branch (Slot.hit ch c))
    | _ => Node.inner h fb v s
  | Node.inner h fb v s, b :: p, branch =>
    match slotAt s b with
    | Slot.hit ch c => Node.inner h fb v (s.set b (Slot.hit ch (Node.canonChild c p branch)))
    | _ => Node.inner h fb v s

/-- Boolean test that `a` is a prefix of `b` (on nibble paths). -/
def isPfxOf : List Nat → List Nat → Bool
  | [], _ => true
  | _ :: _, [] => false
  | a :: as, b :: bs => a == b && isPfxOf as bs

/-- Common-prefix test on node ids.
Modelled from the spec: `hasCommonPrefix(other)` holds when one id's path
extends the other's. -/
def hasCommonPfx (a b : List Nat) : Bool :=
  isPfxOf a b || isPfxOf b a

/-! ## getMissingNodes (SHAMapSync.cpp lines 108-303) -/

/-- The `--max` of the source applied to a `std::size_t` value: decrement
with 64-bit unsigned wraparound (`--max <= 0` is then `decWrap max = 0`). -/
def decWrap (m : Nat) : Nat :=
  if m = 0 then 2 ^ 64 - 1 else m - 1

/-- Call-constant data of a `getMissingNodes` run: the `backed_` flag, the
full-below cache generation captured at entry, and
`getDesiredAsyncReadCount` (`maxDefer`). -/
structure GMEnv where
  backed : Bool
  generation : Nat
  maxDefer : Nat

/-- Mutable state threaded through a `getMissingNodes` run: the tree
(`root_` with in-place child/full-below updates), the full-below cache
contents for the current generation, the result vector `ret`, the
call-local `missingHashes` set, the remaining `max` (a `std::size_t`
value), and the supply of `rand_int(255)` draws. -/
structure GMSt where
  tree : Node
  fbc : List Nat
  ret : List (List Nat × Nat)
  missing : List Nat
  max : Nat
  rands : List Nat

/-- One DFS stack entry of the scanner: the inner node (addressed by its
path from the root), its `nodeID`, and the `firstChild`, `currentChild`,
`fullBelow` loop variables. -/
structure Frame where
  path : List Nat
  nodeID : List Nat
  firstChild : Nat
  currentChild : Nat
  fullBelow : Bool

/-- Outcome of one inner (do-while) traversal: `early` is the
`return ret` executed when `max` is exhausted inside the DFS; `done`
carries the state and the accumulated `deferredReads`. -/
inductive InnerOut where
  | early (ret : List (List Nat × Nat))
  | done (st : GMSt) (deferred : List (List Nat × Nat × List Nat))

/-- Initial DFS frame of an outer iteration: start at the root with a
fresh random `firstChild` and `fullBelow = true`. -/
def initFrame (rands : List Nat) : Frame :=
  { path := [], nodeID := [], firstChild := rands.headD 0,
    currentChild := 0, fullBelow := true }

/-- One inner traversal of `getMissingNodes` (the `do ... while` of lines
163-242), one branch-step or frame-finish per unit of fuel.
`fr` is the current frame, `stack` the explicit DFS stack, `deferred`
the `deferredReads` vector. -/
def gmGo (env : GMEnv) :
    Nat → GMSt → Frame → List Frame → List (List Nat × Nat × List Nat) →
    Option InnerOut
  | 0, _, _, _, _ => none
  | fuel + 1, st, fr, stack, deferred =>
    match st.tree.getAt fr.path with
    | none => none
    | some nd =>
      if fr.currentChild < 16 then
        let branch := (fr.firstChild + fr.currentChild) % 16
        let fr' := { fr with currentChild := fr.currentChild + 1 }
        let sl := slotAt nd.slots branch
        if sl.isEmptyBranch then
          gmGo env fuel st fr' stack deferred
        else
          let childHash := sl.chash
          if childHash ∈ st.missing then
            gmGo env fuel st { fr' with fullBelow := false } stack deferred
          else if env.backed ∧ childHash ∈ st.fbc then
            -- `touch_if_exists` succeeded: branch proven complete, skip it
            gmGo env fuel st fr' stack deferred
          else
            let childID := fr.nodeID ++ [branch]
            match descendAsync sl with
            | (none, pending) =>
              if pending then
                -- read is deferred
                gmGo env fuel st { fr' with fullBelow := false } stack
                  (deferred ++ [(fr.path, branch, childID)])
              else
                -- node is not in the database
                let st' := { st with
                  missing := childHash :: st.missing,
                  ret := st.ret ++ [(childID, childHash)],
                  max := decWrap st.max }
                if st'.max = 0 then some (InnerOut.early st'.ret)
                else gmGo env fuel st' { fr' with fullBelow := false } stack deferred
            | (some child, _) =>
              if child.isInner ∧ child.fbGen ≠ env.generation then
                -- push the current frame and switch to the child
                let newFr : Frame :=
                  { path := fr.path ++ [branch],
                    nodeID := (child.v2path).getD childID,
                    firstChild := st.rands.headD 0,
                    currentChild := 0, fullBelow := true }
                gmGo env fuel { st with rands := st.rands.tail } newFr
                  (fr' :: stack) deferred
              else
                -- leaf child, or inner child already full below
                gmGo env fuel st fr' stack deferred
      else
        -- done with this inner node and all of its children
        let st' :=
          if fr.fullBelow then
            { st with
              tree := st.tree.withFB fr.path env.generation,
              fbc := if env.backed then nd.hash :: st.fbc else st.fbc }
          else st
        match stack with
        | [] => some (InnerOut.done st' deferred)
        | parent :: rest =>
          let fr' := { parent with fullBelow := parent.fullBelow && fr.fullBelow }
          if env.maxDefer < deferred.length then some (InnerOut.done st' deferred)
          else gmGo env fuel st' fr' rest deferred

/-- Processing of the `deferredReads` entries after `waitReads` (lines
257-282): a completed read is canonicalized into its parent; a failed read
is appended to the result if `max > 0` and its hash is new. -/
def procDefer : List (List Nat × Nat × List Nat) → GMSt → GMSt
  | [], st => st
  | (ppath, branch, childID) :: rest, st =>
    let st' :=
      match st.tree.getAt ppath with
      | none => st
      | some parent =>
        let sl := slotAt parent.slots branch
        let nodeHash := sl.chash
        match descendSync sl with
        | some _ => { st with tree := st.tree.canonChild ppath branch }
        | none =>
          if 0 < st.max ∧ nodeHash ∉ st.missing then
            { st with
              missing := nodeHash :: st.missing,
              ret := st.ret ++ [(childID, nodeHash)],
              max := st.max - 1 }
          else st
    procDefer rest st'

/-- The outer `while (1)` loop of `getMissingNodes` (lines 141-297).
The returned Bool records whether `clearSynching` was reached (an outer
iteration deferred no reads and the result list was empty). -/
def gmOuter (env : GMEnv) (gfuel : Nat) : Nat → GMSt → Option (List (List Nat × Nat) × Bool)
  | 0, _ => none
  | ofuel + 1, st =>
    match gmGo env gfuel { st with rands := st.rands.tail } (initFrame st.rands) [] [] with
    | none => none
    | some (InnerOut.early ret) => some (ret, false)
    | some (InnerOut.done st' deferred) =>
      if deferred.isEmpty then some (st'.ret, st'.ret.isEmpty)
      else
        let st'' := procDefer deferred st'
        if st''.max = 0 then some (st''.ret, false)
        else gmOuter env gfuel ofuel st''

/-- `SHAMap::getMissingNodes(max, filter)`.  Besides the tree, the call
depends on the map state, the `backed_` flag, the full-below generation
and cache, `getDesiredAsyncReadCount`, and the stream of random
`firstChild` draws.  It returns the request list together with the map
state it leaves behind.
`clearSynching` is Modelled from the spec: it sets the map state to Valid
(the spec's `Synching -> Valid` transition). -/
def getMissingNodes (root : Node) (state : MapState) (backed : Bool)
    (generation : Nat) (fbc : List Nat) (maxDefer : Nat) (max : Nat)
    (rands : List Nat) (gfuel ofuel : Nat) :
    Option (List (List Nat × Nat) × MapState) :=
  match root with
  | Node.leaf _ _ =>
    -- a non-inner root: `clearSynching` only when the generation is 0
    some ([], if generation = 0 then MapState.Valid else state)
  | Node.inner _ fb _ _ =>
    if fb = generation then some ([], MapState.Valid)
    else
      match gmOuter { backed := backed, generation := generation, maxDefer := maxDefer }
          gfuel ofuel
          { tree := root, fbc := fbc, ret := [], missing := [], max := max, rands := rands } with
      | none => none
      | some (ret, cleared) =>
        some (ret, if cleared then MapState.Valid else state)

/-! ## addRootNode and addKnownNode (SHAMapSync.cpp lines 425-552) -/

/-- Result of `SHAMapAbstractNode::make` on received bytes.
Modelled from the spec: `decode(bytes, ctx)` yields the decoded tree node,
its structural-validity bit (`isValid`), the claimed position of the node
(the id context given to decode, or a v2 node's own id), and the result of
the implementation-defined `isInconsistentNode` structural check.
A failed decode is `Option.none` at the use sites. -/
structure DecNode where
  node : Node
  valid : Bool
  claimed : List Nat
  inconsistent : Bool

/-- Position bound check on a received node.
Modelled from the spec: `isInBounds(nodeId)` checks that the candidate
node's claimed position is consistent with the parent-derived id — depth
equality for the fixed-depth variant, common prefix for the versioned
variant. -/
def isInBounds (dn : DecNode) (id : List Nat) : Bool :=
  if dn.node.isV2 then hasCommonPfx dn.claimed id
  else dn.claimed.length == id.length

/-- `SHAMap::addRootNode(hash, rootNode, format, filter)` (lines 425-459).
Takes the current root, map state, and the decode result of the received
bytes; returns the `SHAMapAddNode` result with the new root and state.
The store-level canonicalization and `filter->gotNode` notification have
no effect on these values. -/
def addRootNode (root : Node) (state : MapState) (_backed : Bool)
    (hash : Nat) (decoded : Option DecNode) : AddResult × Node × MapState :=
  if root.hash ≠ 0 then
    -- we already have a root node (debug builds assert it matches `hash`)
    (AddResult.duplicate, root, state)
  else
    match decoded with
    | none => (AddResult.invalid, root, state)
    | some dn =>
      if !dn.valid || dn.node.hash ≠ hash then (AddResult.invalid, root, state)
      else
        (AddResult.useful, dn.node,
          if dn.node.isLeaf then MapState.Valid else state)

/-- The validation block of `addKnownNode` at the graft point (lines
500-531), reached when `descend` found no resident child on the path.
`childHash` is the expected hash from the parent branch, `iNodeID` the
parent-derived id of the missing child, `targetId` the id the caller said
the node belongs at.  Returns the `SHAMapAddNode` result, the map state
left behind, and whether the node was actually grafted (in which case the
source canonicalizes it into the store and parent and notifies the
filter). -/
def graftChecks (newNode : Option DecNode) (childHash : Nat)
    (iNodeID targetId : List Nat) (state : MapState) :
    AddResult × MapState × Bool :=
  match newNode with
  | none => (AddResult.invalid, state, false)
  | some dn =>
    if !dn.valid || childHash ≠ dn.node.hash then
      -- corrupt node received
      (AddResult.invalid, state, false)
    else if !(isInBounds dn iNodeID) then
      -- map is provably invalid
      (AddResult.useful, MapState.Invalid, false)
    else if dn.inconsistent then
      (AddResult.useful, MapState.Invalid, false)
    else if (dn.node.isV2 && !(hasCommonPfx iNodeID targetId)) ||
        (!dn.node.isV2 && iNodeID ≠ targetId) then
      -- either this node is broken or we did not request it (yet)
      (AddResult.useful, state, false)
    else
      (AddResult.useful, state, true)

/-- The walk of `addKnownNode` (lines 477-548): follow `targetId` from the
root while the node is inner, not full below, and shallower than the
target.  An empty branch on the path is Invalid, a full-below branch hash
is Duplicate, a missing child is the graft point, and falling out of the
loop is the late Duplicate. -/
def addKnownNodeGo (generation : Nat) (fbc : List Nat) (targetId : List Nat)
    (newNode : Option DecNode) (state : MapState) :
    Nat → Node → List Nat → Option (AddResult × MapState × Bool)
  | 0, _, _ => none
  | fuel + 1, iNode, iNodeID =>
    if iNode.isInner ∧ iNode.fbGen ≠ generation ∧ iNodeID.length < targetId.length then
      let branch := targetId.getD iNodeID.length 0
      let sl := slotAt iNode.slots branch
      if sl.isEmptyBranch then
        -- add known node for empty branch
        some (AddResult.invalid, state, false)
      else
        let childHash := sl.chash
        if childHash ∈ fbc then some (AddResult.duplicate, state, false)
        else
          match descendSync sl with
          | some child =>
            addKnownNodeGo generation fbc targetId newNode state fuel child
              ((child.v2path).getD (iNodeID ++ [branch]))
          | none =>
            some (graftChecks newNode childHash (iNodeID ++ [branch]) targetId state)
    else
      -- got node, already had it (late)
      some (AddResult.duplicate, state, false)

/-- `SHAMap::addKnownNode(node, rawNode, filter)` (lines 461-552).
`isSynching` is Modelled from the spec: the state is Synching. -/
def addKnownNode (root : Node) (state : MapState) (generation : Nat)
    (fbc : List Nat) (targetId : List Nat) (newNode : Option DecNode)
    (fuel : Nat) : Option (AddResult × MapState × Bool) :=
  if state ≠ MapState.Synching then some (AddResult.duplicate, state, false)
  else addKnownNodeGo generation fbc targetId newNode state fuel root []

/-! ## visitNodes (SHAMapSync.cpp lines 41-102) -/

/-- The empty-branch skip of `visitNodes` (lines 76-77):
`while ((pos != 15) && (node->isEmptyBranch (pos + 1))) ++pos;`
(inside the loop `pos < 16`, so `pos != 15` is `pos < 15`). -/
def skipEmpties (s : List (Slot Node)) (pos : Nat) : Nat :=
  if pos < 15 ∧ (slotAt s (pos + 1)).isEmptyBranch then skipEmpties s (pos + 1)
  else pos
termination_by 15 - pos

/-- The explicit-stack loop of `visitNodes` (lines 60-101).  `acc` is the
sequence of nodes the visitor has been invoked on so far; `descendNoStore`
is modelled by `descendSync` (a non-resident non-empty branch, which the
source would dereference unchecked, yields `none`). -/
def visitNodesLoop (f : Node → Bool) :
    Nat → List (Slot Node) → Nat → List (Nat × List (Slot Node)) → List Node →
    Option (List Node)
  | 0, _, _, _, _ => none
  | fuel + 1, slots, pos, stack, acc =>
    if pos < 16 then
      let sl := slotAt slots pos
      if sl.isEmptyBranch then visitNodesLoop f fuel slots (pos + 1) stack acc
      else
        match descendSync sl with
        | none => none
        | some child =>
          let acc' := acc ++ [child]
          if f child then some acc'
          else
            match child with
            | Node.leaf _ _ => visitNodesLoop f fuel slots (pos + 1) stack acc'
            | Node.inner _ _ _ cslots =>
              let pos2 := skipEmpties slots pos
              let stack' := if pos2 ≠ 15 then (pos2 + 1, slots) :: stack else stack
              visitNodesLoop f fuel cslots 0 stack' acc'
    else
      match stack with
      | [] => some acc
      | (pos', slots') :: rest => visitNodesLoop f fuel slots' pos' rest acc

/-- `SHAMap::visitNodes(function)`: returns the sequence of nodes the
visitor is invoked on.  Note that the source invokes `function (*root_)`
and discards its return value (line 49) before descending. -/
def visitNodesList (f : Node → Bool) (root : Node) (fuel : Nat) :
    Option (List Node) :=
  match root with
  | Node.leaf _ _ => some [root]
  | Node.inner _ _ _ slots => visitNodesLoop f fuel slots 0 [] [root]

theorem sizeOf_descendSync_lt {s : List (Slot Node)} {pos : Nat} {c : Node}
    (h : descendSync (slotAt s pos) = some c) : sizeOf c < sizeOf s := by
  unfold slotAt at h
  cases hg : s.get? pos with
  | none => rw [hg] at h; simp [descendSync] at h
  | some sl =>
    have hm := List.sizeOf_lt_of_mem (List.get?_mem hg)
    rw [hg] at h
    cases sl <;> simp [descendSync] at h <;> subst h <;> simp at hm <;> omega

mutual
/-- The visitation order of `visitNodes` as a recursive specification,
following the spec's words: a pre-order DFS over the resident nodes, with
leaves visited but not descended into. -/
def preorder : Node → List Node
  | Node.leaf h k => [Node.leaf h k]
  | Node.inner h fb v s => Node.inner h fb v s :: preFrom s 0
termination_by n => (sizeOf n, 0)
decreasing_by
  simp_wf
  apply Prod.Lex.left
  simp
/-- Concatenated pre-order visit of the children of a slot list from
branch `pos` upward. -/
def preFrom (s : List (Slot Node)) (pos : Nat) : List Node :=
  if pos < 16 then
    (match hds : descendSync (slotAt s pos) with
     | some c => preorder c
     | none => []) ++ preFrom s (pos + 1)
  else []
termination_by (sizeOf s, 16 - pos)
decreasing_by
  · simp_wf
    exact Prod.Lex.left _ _ (sizeOf_descendSync_lt hds)
  · simp_wf
    apply Prod.Lex.right
    omega
end

/-! ## getNodeFat (SHAMapSync.cpp lines 318-417) -/

/-- Number of non-empty branches of a slot list (`getBranchCount`). -/
def branchCount (s : List (Slot Node)) : Nat :=
  s.countP (fun sl => !sl.isEmptyBranch)

/-- Result of the walk to the wanted node at the start of `getNodeFat`. -/
inductive WalkRes where
  | notFound
  | found (node : Node) (nodeID : List Nat)

/-- The walk of `getNodeFat` (lines 326-341): follow the wanted id while
the node is inner and shallower than the target; an empty branch refuses
(`return false`), `descendThrow` on a non-resident child is `none`. -/
def fatWalkGo (wanted : List Nat) : Nat → Node → List Nat → Option WalkRes
  | 0, _, _ => none
  | fuel + 1, node, nodeID =>
    if node.isInner ∧ nodeID.length < wanted.length then
      let branch := wanted.getD nodeID.length 0
      let sl := slotAt node.slots branch
      if sl.isEmptyBranch then some WalkRes.notFound
      else
        match descendSync sl with
        | none => none
        | some child =>
          fatWalkGo wanted fuel child ((child.v2path).getD (nodeID ++ [branch]))
    else some (WalkRes.found node nodeID)

/-- The children loop of `getNodeFat` (lines 383-411) from branch `i`
upward: collects the child frames pushed on the stack (in push order) and
the children emitted directly into the reply. -/
def fatChildren (fatLeaves : Bool) (nodeID : List Nat) (depth bc : Nat)
    (slots : List (Slot Node)) (i : Nat) :
    Option (List (Node × List Nat × Nat) × List (List Nat × Node)) :=
  if i < 16 then
    let sl := slotAt slots i
    if sl.isEmptyBranch then fatChildren fatLeaves nodeID depth bc slots (i + 1)
    else
      match descendSync sl with
      | none => none
      | some child =>
        let childID := (child.v2path).getD (nodeID ++ [i])
        match fatChildren fatLeaves nodeID depth bc slots (i + 1) with
        | none => none
        | some (frames, emits) =>
          if child.isInner ∧ (depth > 1 ∨ bc = 1) then
            -- if more than one child, reduce the depth; if only one, follow the chain
            some ((child, childID, if bc > 1 then depth - 1 else depth) :: frames, emits)
          else if child.isInner ∨ fatLeaves then
            some (frames, (childID, child) :: emits)
          else some (frames, emits)
  else some ([], [])
termination_by 16 - i

/-- The emission loop of `getNodeFat` (lines 363-414).  `acc` is the reply
(node ids paired with the nodes whose serialized form is appended).
Frames pushed in ascending branch order are processed in reverse, as with
the source's `std::stack`. -/
def fatLoop (fatLeaves : Bool) :
    Nat → List (Node × List Nat × Nat) → List (List Nat × Node) →
    Option (List (List Nat × Node))
  | 0, _, _ => none
  | _ + 1, [], acc => some acc
  | fuel + 1, (node, nodeID, depth) :: stk, acc =>
    let acc' := acc ++ [(nodeID, node)]
    match node with
    | Node.leaf _ _ => fatLoop fatLeaves fuel stk acc'
    | Node.inner _ _ _ slots =>
      let bc := branchCount slots
      if depth > 0 ∨ bc = 1 then
        match fatChildren fatLeaves nodeID depth bc slots 0 with
        | none => none
        | some (frames, emits) =>
          fatLoop fatLeaves fuel (frames.reverse ++ stk) (acc' ++ emits)
      else fatLoop fatLeaves fuel stk acc'

/-- `SHAMap::getNodeFat(wanted, nodeIDs, rawNodes, fatLeaves, depth)`.
`some none` is the `return false` refusal (wrong position, empty node, or
empty branch on the walk); `some (some l)` is a successful reply listing
`(nodeID, node)` in emission order. -/
def getNodeFat (root : Node) (wanted : List Nat) (fatLeaves : Bool)
    (depth : Nat) (wfuel lfuel : Nat) :
    Option (Option (List (List Nat × Node))) :=
  match fatWalkGo wanted wfuel root [] with
  | none => none
  | some WalkRes.notFound => some none
  | some (WalkRes.found node nodeID) =>
    if (node.isV2 && !(hasCommonPfx wanted nodeID)) ||
        (!node.isV2 && wanted ≠ nodeID) then
      -- peer requested node that is not in the map
      some none
    else if node.isInner ∧ branchCount node.slots = 0 then
      -- peer requests empty node
      some none
    else
      match fatLoop fatLeaves lfuel [(node, nodeID, depth)] [] with
      | none => none
      | some l => some (some l)

/-! ## hasInnerNode, hasLeafNode, visitDifferences, getFetchPack
(SHAMapSync.cpp lines 626-771) -/

/-- Key of a leaf node's item (`peekItem()->key()`). -/
def Node.leafKey : Node → List Nat
  | Node.leaf _ k => k
  | Node.inner _ _ _ _ => []

/-- The walk of `SHAMap::hasInnerNode` (lines 630-643). -/
def hasInnerNodeGo (targetId : List Nat) (targetHash : Nat) :
    Node → List Nat → Option Bool
  | node, nodeID =>
    if h : node.isInner ∧ nodeID.length < targetId.length then
      let branch := targetId.getD nodeID.length 0
      let sl := slotAt node.slots branch
      if sl.isEmptyBranch then some false
      else
        match descendSync sl with
        | none => none
        | some child => hasInnerNodeGo targetId targetHash child (nodeID ++ [branch])
    else some (node.isInner && node.hash == targetHash)
termination_by _ nodeID => targetId.length - nodeID.length
decreasing_by
  simp only [List.length_append, List.length_cons, List.length_nil]
  omega

/-- `SHAMap::hasInnerNode(targetNodeID, targetNodeHash)` (lines 626-645). -/
def hasInnerNode (root : Node) (targetId : List Nat) (targetHash : Nat) :
    Option Bool :=
  hasInnerNodeGo targetId targetHash root []

/-- The do-while of `SHAMap::hasLeafNode` (lines 658-671); `depth` is the
current node depth used by `selectBranch(tag)`. -/
def hasLeafNodeGo (tag : List Nat) (targetHash : Nat) :
    Nat → Node → Nat → Option Bool
  | 0, _, _ => none
  | fuel + 1, node, depth =>
    let branch := tag.getD depth 0
    let sl := slotAt node.slots branch
    if sl.isEmptyBranch then some false
    else if sl.chash == targetHash then some true
    else
      match descendSync sl with
      | none => none
      | some child =>
        if child.isInner then hasLeafNodeGo tag targetHash fuel child (depth + 1)
        else some false

/-- `SHAMap::hasLeafNode(tag, targetNodeHash)` (lines 649-674). -/
def hasLeafNode (root : Node) (tag : List Nat) (targetHash : Nat)
    (fuel : Nat) : Option Bool :=
  if !root.isInner then some (root.hash == targetHash)
  else hasLeafNodeGo tag targetHash fuel root 0

/-- The `have`-side inner-node check of `visitDifferences` (line 758):
trivially false when there is no `have` map. -/
def haveHasInner (haveT : Option Node) (id : List Nat) (h : Nat) :
    Option Bool :=
  match haveT with
  | none => some false
  | some hv => hasInnerNode hv id h

/-- The `have`-side leaf check of `visitDifferences` (lines 725, 761):
trivially false when there is no `have` map. -/
def haveHasLeaf (haveT : Option Node) (key : List Nat) (h : Nat)
    (hfuel : Nat) : Option Bool :=
  match haveT with
  | none => some false
  | some hv => hasLeafNode hv key h hfuel

/-- Equality of root hashes with the `have` map (line 719). -/
def sameRootHash (haveT : Option Node) (root : Node) : Bool :=
  match haveT with
  | some hv => root.hash == hv.hash
  | none => false

/-- The children loop of `visitDifferences` (lines 748-769) from branch
`i` upward, threading the visitor state `s`.  `Sum.inl` is the early
return triggered by the visitor refusing a leaf child; `Sum.inr` carries
the state and the inner children pushed (in push order). -/
def vdChildren {σ : Type} (haveT : Option Node) (visit : σ → Node → σ × Bool)
    (hfuel : Nat) (slots : List (Slot Node)) (nodeID : List Nat) :
    Nat → σ → Option (σ ⊕ (σ × List (Node × List Nat)))
  | i, s =>
    if h : i < 16 then
      let sl := slotAt slots i
      if sl.isEmptyBranch then vdChildren haveT visit hfuel slots nodeID (i + 1) s
      else
        let childHash := sl.chash
        let childID := nodeID ++ [i]
        match descendSync sl with
        | none => none
        | some next =>
          if next.isInner then
            match haveHasInner haveT childID childHash with
            | none => none
            | some true => vdChildren haveT visit hfuel slots nodeID (i + 1) s
            | some false =>
              match vdChildren haveT visit hfuel slots nodeID (i + 1) s with
              | none => none
              | some (Sum.inl s') => some (Sum.inl s')
              | some (Sum.inr (s', pushes)) =>
                some (Sum.inr (s', (next, childID) :: pushes))
          else
            match haveHasLeaf haveT next.leafKey childHash hfuel with
            | none => none
            | some true => vdChildren haveT visit hfuel slots nodeID (i + 1) s
            | some false =>
              let p := visit s next
              if p.2 then vdChildren haveT visit hfuel slots nodeID (i + 1) p.1
              else some (Sum.inl p.1)
    else some (Sum.inr (s, []))
termination_by i _ => 16 - i

/-- The stack loop of `visitDifferences` (lines 736-770). -/
def vdLoop {σ : Type} (haveT : Option Node) (visit : σ → Node → σ × Bool)
    (hfuel : Nat) : Nat → List (Node × List Nat) → σ → Option σ
  | 0, _, _ => none
  | _ + 1, [], s => some s
  | fuel + 1, (node, nodeID) :: stk, s =>
    let p := visit s node
    if !p.2 then some p.1
    else
      match vdChildren haveT visit hfuel node.slots nodeID 0 p.1 with
      | none => none
      | some (Sum.inl s'') => some s''
      | some (Sum.inr (s'', pushes)) =>
        vdLoop haveT visit hfuel fuel (pushes.reverse ++ stk) s''

/-- `SHAMap::visitDifferences(have, func)` (lines 709-771) with a
state-threading visitor (the source's `func` is a stateful closure). -/
def visitDifferences {σ : Type} (root : Node) (haveT : Option Node)
    (visit : σ → Node → σ × Bool) (s0 : σ) (fuel hfuel : Nat) : Option σ :=
  if root.hash = 0 then some s0
  else if sameRootHash haveT root then some s0
  else
    match root with
    | Node.leaf lh key =>
      match haveHasLeaf haveT key lh hfuel with
      | none => none
      | some true => some s0
      | some false => some (visit s0 root).1
    | Node.inner h fb v s =>
      vdLoop haveT visit hfuel fuel [(Node.inner h fb v s, [])] s0

/-- The visitor `getFetchPack` passes to `visitDifferences` (lines
693-706): state is the remaining `max` (a C++ `int`, modelled as `Int`)
and the list of `func(hash, data)` invocations made so far. -/
def fpVisit (includeLeaves : Bool) (s : Int × List (Nat × Node)) (n : Node) :
    (Int × List (Nat × Node)) × Bool :=
  if includeLeaves || n.isInner then
    ((s.1 - 1, s.2 ++ [(n.hash, n)]), !(decide (s.1 - 1 ≤ 0)))
  else (s, true)

/-- `SHAMap::getFetchPack(have, includeLeaves, max, func)` (lines
685-707): returns the list of `func` invocations.  `thisV2`/`haveV2` are
the two maps' `is_v2()` flags. -/
def getFetchPack (root : Node) (haveM : Option Node) (thisV2 haveV2 : Bool)
    (includeLeaves : Bool) (max : Int) (fuel hfuel : Nat) :
    Option (List (Nat × Node)) :=
  if haveM.isSome ∧ haveV2 ≠ thisV2 then some []
  else
    (visitDifferences root haveM (fpVisit includeLeaves) (max, []) fuel hfuel).map
      (fun s => s.2)

/-! ## Auxiliary constructions used in the statements -/

/-- Sixteen empty child slots. -/
def empt16 : List (Slot Node) := List.replicate 16 Slot.empty

/-- Sixteen child slots with a single non-empty branch `b`. -/
def slot16 (b : Nat) (sl : Slot Node) : List (Slot Node) := empt16.set b sl

/-- A chain of single-child inner nodes following the branch list `bs`,
ending at `t`. -/
def mkChain : List Nat → Node → Node
  | [], t => t
  | b :: bs, t =>
    Node.inner 1 0 none (slot16 b (Slot.hit (mkChain bs t).hash (mkChain bs t)))

/-- The nodes `getNodeFat` emits when walking `mkChain bs t` from the id
`base`: every chain node at its prefix id, ending with `t`. -/
def chainEmits (base : List Nat) : List Nat → Node → List (List Nat × Node)
  | [], t => [(base, t)]
  | b :: bs, t => (base, mkChain (b :: bs) t) :: chainEmits (base ++ [b]) bs t

/-! ## Claims C3 and C10: addRootNode -/

/-- Claim C3, counterexample: with a root of nonzero hash 1 and
`expectedHash = 2`, `addRootNode` returns Duplicate, not the Invalid the
claim requires for a hash mismatch (the source returns Duplicate
unconditionally at lines 428-434; debug builds merely assert equality). -/
theorem addRootNode_nonzero_root_not_invalid :
    Node.hash (Node.leaf 1 []) ≠ 0 ∧ Node.hash (Node.leaf 1 []) ≠ 2 ∧
    (addRootNode (Node.leaf 1 []) MapState.Synching false 2 none).1 =
      AddResult.duplicate ∧
    AddResult.duplicate ≠ AddResult.invalid := by
  refine ⟨by decide, by decide, rfl, by decide⟩

/-- Claim C3 (amended): for every call on a map whose root already has a
nonzero hash, `addRootNode` returns Duplicate and changes nothing,
whether or not the existing root's hash equals `expectedHash`. -/
theorem addRootNode_nonzero_root_duplicate (root : Node) (state : MapState)
    (backed : Bool) (h : Nat) (decoded : Option DecNode)
    (hnz : root.hash ≠ 0) :
    addRootNode root state backed h decoded =
      (AddResult.duplicate, root, state) := by
  unfold addRootNode
  rw [if_pos hnz]

/-- Witness for `addRootNode_nonzero_root_duplicate` at a concrete root. -/
theorem addRootNode_nonzero_root_duplicate_witness :
    Node.hash (Node.leaf 1 []) ≠ 0 ∧
    addRootNode (Node.leaf 1 []) MapState.Synching false 2 none =
      (AddResult.duplicate, Node.leaf 1 [], MapState.Synching) :=
  ⟨by decide,
    addRootNode_nonzero_root_duplicate (Node.leaf 1 []) MapState.Synching
      false 2 none (by decide)⟩

/-- Claim C10: `addRootNode` is atomic on failure — whenever it returns
Invalid (absent, structurally invalid, or hash-mismatched decode), the
root and the map state are unchanged (lines 436-448 return before any
mutation). -/
theorem addRootNode_invalid_preserves_map (root : Node) (state : MapState)
    (backed : Bool) (h : Nat) (decoded : Option DecNode)
    (hinv : (addRootNode root state backed h decoded).1 = AddResult.invalid) :
    (addRootNode root state backed h decoded).2.1 = root ∧
    (addRootNode root state backed h decoded).2.2 = state := by
  by_cases h0 : root.hash ≠ 0
  · simp [addRootNode, h0] at hinv
  · rw [Ne, not_not] at h0
    cases decoded with
    | none => simp [addRootNode, h0]
    | some dn =>
      by_cases hv : dn.valid
      · by_cases hh : dn.node.hash = h
        · simp [addRootNode, h0, hv, hh] at hinv
        · simp [addRootNode, h0, hv, hh]
      · simp [addRootNode, h0, hv]

/-- Witness for `addRootNode_invalid_preserves_map`: a failed decode on a
zero-hash root leaves root and state alone. -/
theorem addRootNode_invalid_preserves_map_witness :
    (addRootNode (Node.leaf 0 []) MapState.Synching false 5 none).1 =
      AddResult.invalid ∧
    (addRootNode (Node.leaf 0 []) MapState.Synching false 5 none).2.1 =
      Node.leaf 0 [] ∧
    (addRootNode (Node.leaf 0 []) MapState.Synching false 5 none).2.2 =
      MapState.Synching :=
  ⟨rfl,
    (addRootNode_invalid_preserves_map (Node.leaf 0 []) MapState.Synching
      false 5 none rfl).1,
    (addRootNode_invalid_preserves_map (Node.leaf 0 []) MapState.Synching
      false 5 none rfl).2⟩

/-! ## Claim C4: leaf root in getMissingNodes -/

/-- Claim C4, counterexample: on a map whose root is a leaf but whose
full-below generation is nonzero (here 7), `getMissingNodes` returns
empty with the state still Synching — it does not set the state to Valid
as the claim requires (lines 118-125 call `clearSynching` only when the
generation is 0). -/
theorem getMissingNodes_leaf_root_not_valid :
    getMissingNodes (Node.leaf 3 []) MapState.Synching true 7 [] 4 10 [] 5 5 =
      some ([], MapState.Synching) ∧
    MapState.Synching ≠ MapState.Valid := by
  exact ⟨rfl, by decide⟩

/-- Claim C4 (amended): for every map whose root is a leaf,
`getMissingNodes` returns the empty list; it sets the state to Valid only
when the full-below cache generation is 0, and otherwise leaves the state
unchanged (logging "synching empty tree"). -/
theorem getMissingNodes_leaf_root (h : Nat) (key : List Nat)
    (state : MapState) (backed : Bool) (generation : Nat) (fbc : List Nat)
    (maxDefer max : Nat) (rands : List Nat) (gfuel ofuel : Nat) :
    getMissingNodes (Node.leaf h key) state backed generation fbc maxDefer
        max rands gfuel ofuel =
      some ([], if generation = 0 then MapState.Valid else state) := rfl

/-! ## Claim C2: addKnownNode graft-point validation order -/

/-- Claim C2: at the graft point of `addKnownNode` (the `graftChecks`
block, lines 500-547) the validation checks run in order and stop at the
first failure: a missing, invalid, or hash-mismatched decode returns
Invalid with the state still Synching; a node passing that but failing
`isInBounds` (or the `isInconsistentNode` check) sets the state to
Invalid and returns Useful; a node passing those whose position does not
match the target (common prefix for the v2 variant, equality otherwise)
returns Useful with the state unchanged. -/
theorem addKnownNode_graft_validation_order (newNode : Option DecNode)
    (childHash : Nat) (iNodeID targetId : List Nat) :
    ((newNode = none ∨
        ∃ dn, newNode = some dn ∧ (dn.valid = false ∨ childHash ≠ dn.node.hash)) →
      graftChecks newNode childHash iNodeID targetId MapState.Synching =
        (AddResult.invalid, MapState.Synching, false)) ∧
    (∀ dn, newNode = some dn → dn.valid = true → childHash = dn.node.hash →
      (isInBounds dn iNodeID = false ∨ dn.inconsistent = true) →
      graftChecks newNode childHash iNodeID targetId MapState.Synching =
        (AddResult.useful, MapState.Invalid, false)) ∧
    (∀ dn, newNode = some dn → dn.valid = true → childHash = dn.node.hash →
      isInBounds dn iNodeID = true → dn.inconsistent = false →
      ((dn.node.isV2 = true ∧ hasCommonPfx iNodeID targetId = false) ∨
        (dn.node.isV2 = false ∧ iNodeID ≠ targetId)) →
      graftChecks newNode childHash iNodeID targetId MapState.Synching =
        (AddResult.useful, MapState.Synching, false)) := by
  refine ⟨?_, ?_, ?_⟩
  · rintro (rfl | ⟨dn, rfl, hbad⟩)
    · rfl
    · cases hbad with
      | inl hv => simp [graftChecks, hv]
      | inr hh => simp [graftChecks, hh]
  · rintro dn rfl hv hh hfail
    cases hfail with
    | inl hib => simp [graftChecks, hv, hh, hib]
    | inr hic =>
      by_cases hib : isInBounds dn iNodeID
      · simp [graftChecks, hv, hh, hib, hic]
      · simp [graftChecks, hv, hh, hib]
  · rintro dn rfl hv hh hib hic hmis
    cases hmis with
    | inl hv2 => simp [graftChecks, hv, hh, hib, hic, hv2.1, hv2.2]
    | inr hnv2 => simp [graftChecks, hv, hh, hib, hic, hnv2.1, hnv2.2]

/-- A decoded leaf whose claimed position is out of bounds for parent
depth 1. -/
def dnOut : DecNode :=
  { node := Node.leaf 5 [], valid := true, claimed := [], inconsistent := false }

/-- A decoded leaf that passes the bounds check but sits at the wrong
position. -/
def dnMis : DecNode :=
  { node := Node.leaf 5 [], valid := true, claimed := [1], inconsistent := false }

/-- Witness for `addKnownNode_graft_validation_order`: the three failure
classes at concrete inputs. -/
theorem addKnownNode_graft_validation_order_witness :
    graftChecks none 5 [1] [1] MapState.Synching =
      (AddResult.invalid, MapState.Synching, false) ∧
    graftChecks (some dnOut) 5 [1] [1] MapState.Synching =
      (AddResult.useful, MapState.Invalid, false) ∧
    graftChecks (some dnMis) 5 [1] [2] MapState.Synching =
      (AddResult.useful, MapState.Synching, false) :=
  ⟨(addKnownNode_graft_validation_order none 5 [1] [1]).1 (Or.inl rfl),
    (addKnownNode_graft_validation_order (some dnOut) 5 [1] [1]).2.1 dnOut rfl
      rfl rfl (Or.inl (by decide)),
    (addKnownNode_graft_validation_order (some dnMis) 5 [1] [2]).2.2 dnMis rfl
      rfl rfl (by decide) rfl (Or.inr ⟨by decide, by decide⟩)⟩

/-! ## Claim C1: the length bound of getMissingNodes -/

/-- Scanner-state invariant for the length bound: entries produced so far
plus the remaining budget equal the original `max`, which is still
positive. -/
def LenInv (N : Nat) (st : GMSt) : Prop :=
  st.ret.length + st.max = N ∧ 1 ≤ st.max

/-- The length-bound invariant transported to an inner-loop outcome. -/
def LenOut (N : Nat) : InnerOut → Prop
  | InnerOut.early r => r.length ≤ N
  | InnerOut.done st _ => LenInv N st

theorem decWrap_eq_zero {m : Nat} : decWrap m = 0 ↔ m = 1 := by
  unfold decWrap
  split <;> omega

theorem gmGo_len (env : GMEnv) (N : Nat) :
    ∀ fuel st fr stack deferred out,
      gmGo env fuel st fr stack deferred = some out →
      LenInv N st → LenOut N out := by
  intro fuel
  induction fuel with
  | zero =>
    intro st fr stack deferred out h
    exact absurd h (by simp [gmGo])
  | succ n ih =>
    intro st fr stack deferred out h hinv
    simp only [gmGo] at h
    split at h
    · exact absurd h (by simp)
    · rename_i nd _
      split at h
      · -- currentChild < 16
        split at h
        · exact ih _ _ _ _ _ h hinv
        · split at h
          · exact ih _ _ _ _ _ h hinv
          · split at h
            · exact ih _ _ _ _ _ h hinv
            · split at h
              · -- descendAsync gave (none, pending)
                split at h
                · exact ih _ _ _ _ _ h hinv
                · -- miss: entry appended, max decremented with wraparound
                  obtain ⟨hsum, hpos⟩ := hinv
                  split at h
                  · rename_i hzero
                    cases h
                    have h1 : st.max = 1 := decWrap_eq_zero.mp hzero
                    simp only [LenOut, List.length_append, List.length_singleton]
                    omega
                  · rename_i hnz
                    have hdw : decWrap st.max = st.max - 1 := by
                      unfold decWrap
                      split <;> omega
                    refine ih _ _ _ _ _ h ⟨?_, ?_⟩
                    · simp only [List.length_append, List.length_singleton]
                      rw [hdw, Nat.add_assoc, Nat.add_sub_cancel' hpos]
                      exact hsum
                    · exact Nat.one_le_iff_ne_zero.mpr hnz
              · -- descendAsync hit a resident child
                split at h
                · exact ih _ _ _ _ _ h ⟨hinv.1, hinv.2⟩
                · exact ih _ _ _ _ _ h hinv
      · -- frame finished
        have hinv' :
            LenInv N (if fr.fullBelow then
              { st with tree := st.tree.withFB fr.path env.generation,
                        fbc := if env.backed then nd.hash :: st.fbc else st.fbc }
              else st) := by
          split <;> exact hinv
        split at h
        · cases h
          exact hinv'
        · split at h
          · cases h
            exact hinv'
          · exact ih _ _ _ _ _ h hinv'

theorem procDefer_sum (N : Nat) :
    ∀ l st, st.ret.length + st.max = N →
      (procDefer l st).ret.length + (procDefer l st).max = N := by
  intro l
  induction l with
  | nil => intro st h; exact h
  | cons d rest ih =>
    intro st h
    obtain ⟨ppath, branch, childID⟩ := d
    simp only [procDefer]
    apply ih
    split
    · exact h
    · split
      · exact h
      · split
        · rename_i hc
          simp only [List.length_append, List.length_singleton]
          omega
        · exact h

theorem gmOuter_len (env : GMEnv) (gfuel N : Nat) :
    ∀ ofuel st ret b, LenInv N st →
      gmOuter env gfuel ofuel st = some (ret, b) → ret.length ≤ N := by
  intro ofuel
  induction ofuel with
  | zero =>
    intro st ret b _ h
    exact absurd h (by simp [gmOuter])
  | succ n ih =>
    intro st ret b hinv h
    simp only [gmOuter] at h
    split at h
    · exact absurd h (by simp)
    · rename_i r heq
      have hout := gmGo_len env N gfuel _ _ _ _ _ heq hinv
      simp only [Option.some.injEq, Prod.mk.injEq] at h
      obtain ⟨h1, _⟩ := h
      subst h1
      exact hout
    · rename_i st' deferred heq
      have hout := gmGo_len env N gfuel _ _ _ _ _ heq hinv
      split at h
      · simp only [Option.some.injEq, Prod.mk.injEq] at h
        obtain ⟨h1, _⟩ := h
        subst h1
        exact Nat.le.intro hout.1
      · split at h
        · simp only [Option.some.injEq, Prod.mk.injEq] at h
          obtain ⟨h1, _⟩ := h
          subst h1
          exact Nat.le.intro (procDefer_sum N deferred st' hout.1)
        · rename_i hne
          exact ih _ _ _ ⟨procDefer_sum N deferred st' hout.1,
            Nat.one_le_iff_ne_zero.mpr hne⟩ h

/-- Claim C1 (amended): for every max with 1 ≤ max, the list returned by
`getMissingNodes(max, filter)` has length at most max.  (For max = 0 the
claim fails, see the counterexample: `--max` wraps the `std::size_t`
counter around.) -/
theorem getMissingNodes_length_le_max (root : Node) (state : MapState)
    (backed : Bool) (generation : Nat) (fbc : List Nat) (maxDefer max : Nat)
    (rands : List Nat) (gfuel ofuel : Nat) (ret : List (List Nat × Nat))
    (stOut : MapState) (hmax : 1 ≤ max)
    (h : getMissingNodes root state backed generation fbc maxDefer max rands
        gfuel ofuel = some (ret, stOut)) :
    ret.length ≤ max := by
  cases root with
  | leaf lh key =>
    simp only [getMissingNodes, Option.some.injEq, Prod.mk.injEq] at h
    obtain ⟨h1, _⟩ := h
    subst h1
    simp
  | inner nh fb v s =>
    simp only [getMissingNodes] at h
    split at h
    · simp only [Option.some.injEq, Prod.mk.injEq] at h
      obtain ⟨h1, _⟩ := h
      subst h1
      simp
    · cases hout : gmOuter
          { backed := backed, generation := generation, maxDefer := maxDefer }
          gfuel ofuel
          { tree := Node.inner nh fb v s, fbc := fbc, ret := [], missing := [],
            max := max, rands := rands } with
      | none => rw [hout] at h; exact absurd h (by simp)
      | some p =>
        obtain ⟨r, b⟩ := p
        rw [hout] at h
        simp only [Option.some.injEq, Prod.mk.injEq] at h
        obtain ⟨h1, _⟩ := h
        subst h1
        exact gmOuter_len _ gfuel max ofuel _ r b ⟨by simp, hmax⟩ hout

/-- The tree used for the max = 0 counterexample and the length-bound
witness: an inner root whose branch 0 is a missing child with hash 7. -/
def tC1 : Node := Node.inner 10 0 none (slot16 0 (Slot.miss 7))

/-- Claim C1, counterexample: with max = 0 on a map with one missing
child, `getMissingNodes` returns a list of length 1 > 0 and contacts the
store, because `--max` on the `std::size_t` counter wraps around to
2^64 - 1 instead of stopping (line 191). -/
theorem getMissingNodes_max_zero_not_empty :
    getMissingNodes tC1 MapState.Synching false 1 [] 4 0 [] 64 4 =
      some ([([0], 7)], MapState.Synching) ∧
    ¬ (([([0], 7)] : List (List Nat × Nat)).length ≤ 0) :=
  ⟨rfl, by decide⟩

/-- Witness for `getMissingNodes_length_le_max` at max = 1. -/
theorem getMissingNodes_length_le_max_witness :
    getMissingNodes tC1 MapState.Synching false 1 [] 4 1 [] 64 4 =
      some ([([0], 7)], MapState.Synching) ∧
    ([([0], 7)] : List (List Nat × Nat)).length ≤ 1 :=
  ⟨rfl,
    getMissingNodes_length_le_max tC1 MapState.Synching false 1 [] 4 1 [] 64 4
      [([0], 7)] MapState.Synching (by decide) rfl⟩

/-! ## Claim C6: no duplicate hashes in a single getMissingNodes call -/

/-- Scanner-state invariant for deduplication: the hashes returned so far
are pairwise distinct and all recorded in the call-local `missingHashes`
set. -/
def NdInv (st : GMSt) : Prop :=
  (st.ret.map Prod.snd).Nodup ∧ ∀ p ∈ st.ret, p.2 ∈ st.missing

/-- The deduplication invariant transported to an inner-loop outcome. -/
def NdOut : InnerOut → Prop
  | InnerOut.early r => (r.map Prod.snd).Nodup
  | InnerOut.done st _ => NdInv st

theorem nodup_snd_append {ret : List (List Nat × Nat)} {missing : List Nat}
    (h1 : (ret.map Prod.snd).Nodup) (h2 : ∀ p ∈ ret, p.2 ∈ missing)
    (cid : List Nat) {ch : Nat} (hch : ch ∉ missing) :
    ((ret ++ [(cid, ch)]).map Prod.snd).Nodup ∧
      ∀ p ∈ ret ++ [(cid, ch)], p.2 ∈ ch :: missing := by
  constructor
  · rw [List.map_append]
    refine List.Nodup.append h1 (List.nodup_singleton _) ?_
    intro a ha hb
    simp only [List.map_cons, List.map_nil, List.mem_singleton] at hb
    subst hb
    obtain ⟨p, hp, hpa⟩ := List.mem_map.mp ha
    exact hch (hpa ▸ h2 p hp)
  · intro p hp
    rcases List.mem_append.mp hp with hl | hr
    · exact List.mem_cons_of_mem _ (h2 p hl)
    · simp only [List.mem_singleton] at hr
      subst hr
      exact List.mem_cons_self _ _

theorem gmGo_nodup (env : GMEnv) :
    ∀ fuel st fr stack deferred out,
      gmGo env fuel st fr stack deferred = some out → NdInv st → NdOut out := by
  intro fuel
  induction fuel with
  | zero =>
    intro st fr stack deferred out h
    exact absurd h (by simp [gmGo])
  | succ n ih =>
    intro st fr stack deferred out h hinv
    simp only [gmGo] at h
    split at h
    · exact absurd h (by simp)
    · rename_i nd _
      split at h
      · split at h
        · exact ih _ _ _ _ _ h hinv
        · split at h
          · exact ih _ _ _ _ _ h hinv
          · rename_i hmem
            split at h
            · exact ih _ _ _ _ _ h hinv
            · split at h
              · split at h
                · exact ih _ _ _ _ _ h hinv
                · have happ := nodup_snd_append hinv.1 hinv.2
                    (fr.nodeID ++ [(fr.firstChild + fr.currentChild) % 16]) hmem
                  split at h
                  · cases h
                    exact happ.1
                  · exact ih _ _ _ _ _ h ⟨happ.1, happ.2⟩
              · split at h
                · exact ih _ _ _ _ _ h hinv
                · exact ih _ _ _ _ _ h hinv
      · have hinv' :
            NdInv (if fr.fullBelow then
              { st with tree := st.tree.withFB fr.path env.generation,
                        fbc := if env.backed then nd.hash :: st.fbc else st.fbc }
              else st) := by
          split <;> exact hinv
        split at h
        · cases h
          exact hinv'
        · split at h
          · cases h
            exact hinv'
          · exact ih _ _ _ _ _ h hinv'

theorem procDefer_nodup :
    ∀ l st, NdInv st → NdInv (procDefer l st) := by
  intro l
  induction l with
  | nil => intro st h; exact h
  | cons d rest ih =>
    intro st h
    obtain ⟨ppath, branch, childID⟩ := d
    simp only [procDefer]
    apply ih
    split
    · exact h
    · split
      · exact h
      · split
        · rename_i hc
          exact nodup_snd_append h.1 h.2 childID hc.2
        · exact h

theorem gmOuter_nodup (env : GMEnv) (gfuel : Nat) :
    ∀ ofuel st ret b, NdInv st →
      gmOuter env gfuel ofuel st = some (ret, b) → (ret.map Prod.snd).Nodup := by
  intro ofuel
  induction ofuel with
  | zero =>
    intro st ret b _ h
    exact absurd h (by simp [gmOuter])
  | succ n ih =>
    intro st ret b hinv h
    simp only [gmOuter] at h
    split at h
    · exact absurd h (by simp)
    · rename_i r heq
      have hout := gmGo_nodup env gfuel _ _ _ _ _ heq hinv
      simp only [Option.some.injEq, Prod.mk.injEq] at h
      obtain ⟨h1, _⟩ := h
      subst h1
      exact hout
    · rename_i st' deferred heq
      have hout := gmGo_nodup env gfuel _ _ _ _ _ heq hinv
      split at h
      · simp only [Option.some.injEq, Prod.mk.injEq] at h
        obtain ⟨h1, _⟩ := h
        subst h1
        exact hout.1
      · split at h
        · simp only [Option.some.injEq, Prod.mk.injEq] at h
          obtain ⟨h1, _⟩ := h
          subst h1
          exact (procDefer_nodup deferred st' hout).1
        · exact ih _ _ _ (procDefer_nodup deferred st' hout) h

/-- Claim C6: within a single `getMissingNodes` call no hash appears twice
in the returned list — every appended entry is first checked against and
recorded in the call-local `missingHashes` set (lines 172, 186, 273). -/
theorem getMissingNodes_no_duplicate_hashes (root : Node) (state : MapState)
    (backed : Bool) (generation : Nat) (fbc : List Nat) (maxDefer max : Nat)
    (rands : List Nat) (gfuel ofuel : Nat) (ret : List (List Nat × Nat))
    (stOut : MapState)
    (h : getMissingNodes root state backed generation fbc maxDefer max rands
        gfuel ofuel = some (ret, stOut)) :
    (ret.map Prod.snd).Nodup := by
  cases root with
  | leaf lh key =>
    simp only [getMissingNodes, Option.some.injEq, Prod.mk.injEq] at h
    obtain ⟨h1, _⟩ := h
    subst h1
    simp
  | inner nh fb v s =>
    simp only [getMissingNodes] at h
    split at h
    · simp only [Option.some.injEq, Prod.mk.injEq] at h
      obtain ⟨h1, _⟩ := h
      subst h1
      simp
    · cases hout : gmOuter
          { backed := backed, generation := generation, maxDefer := maxDefer }
          gfuel ofuel
          { tree := Node.inner nh fb v s, fbc := fbc, ret := [], missing := [],
            max := max, rands := rands } with
      | none => rw [hout] at h; exact absurd h (by simp)
      | some p =>
        obtain ⟨r, b⟩ := p
        rw [hout] at h
        simp only [Option.some.injEq, Prod.mk.injEq] at h
        obtain ⟨h1, _⟩ := h
        subst h1
        exact gmOuter_nodup _ gfuel ofuel _ r b ⟨by simp, by simp⟩ hout

/-! ## Claim C5: a clean pass clears the Synching state -/

/-- Claim C5: if an outer-loop iteration of `getMissingNodes` finishes its
DFS with an empty `deferredReads` list and the accumulated result list is
also empty, the call breaks out of the outer loop and `clearSynching` sets
the map state from Synching to Valid before returning (lines 244-246 and
299-301). -/
theorem getMissingNodes_clean_pass_clears_synching (h fb : Nat)
    (v2 : Option (List Nat)) (s : List (Slot Node)) (backed : Bool)
    (generation : Nat) (fbc : List Nat) (maxDefer max : Nat)
    (rands : List Nat) (gfuel ofuel : Nat) (st' : GMSt)
    (hfb : fb ≠ generation)
    (hrun : gmGo { backed := backed, generation := generation, maxDefer := maxDefer }
        gfuel
        { tree := Node.inner h fb v2 s, fbc := fbc, ret := [], missing := [],
          max := max, rands := rands.tail }
        (initFrame rands) [] [] = some (InnerOut.done st' []))
    (hret : st'.ret = []) :
    getMissingNodes (Node.inner h fb v2 s) MapState.Synching backed generation
        fbc maxDefer max rands gfuel (ofuel + 1) =
      some ([], MapState.Valid) := by
  simp only [getMissingNodes, gmOuter]
  rw [if_neg hfb]
  rw [hrun]
  simp [hret]

/-- The tree for the clean-pass witness: an inner root whose single child
is a resident leaf, so one DFS pass defers nothing and finds nothing. -/
def tC5 : Node := Node.inner 10 0 none (slot16 0 (Slot.hit 7 (Node.leaf 7 [1])))

/-- Witness for `getMissingNodes_clean_pass_clears_synching`. -/
theorem getMissingNodes_clean_pass_clears_synching_witness :
    getMissingNodes tC5 MapState.Synching false 5 [] 4 9 [] 32 1 =
      some ([], MapState.Valid) :=
  getMissingNodes_clean_pass_clears_synching 10 0 none
    (slot16 0 (Slot.hit 7 (Node.leaf 7 [1]))) false 5 [] 4 9 [] 32 0
    { tree := Node.inner 10 5 none (slot16 0 (Slot.hit 7 (Node.leaf 7 [1]))),
      fbc := [], ret := [], missing := [], max := 9, rands := [] }
    (by decide) rfl rfl

/-- The tree for the deduplication witness: the root's resident child has
the missing hash 7 on two distinct branches; only one request is made. -/
def tC6 : Node :=
  Node.inner 10 0 none
    (slot16 0 (Slot.hit 20
      (Node.inner 20 0 none ((empt16.set 1 (Slot.miss 7)).set 3 (Slot.miss 7)))))

/-- Witness for `getMissingNodes_no_duplicate_hashes`: the shared hash 7
is returned exactly once. -/
theorem getMissingNodes_no_duplicate_hashes_witness :
    getMissingNodes tC6 MapState.Synching false 5 [] 4 10 [] 100 10 =
      some ([([0, 1], 7)], MapState.Synching) ∧
    (([([0, 1], 7)] : List (List Nat × Nat)).map Prod.snd).Nodup :=
  ⟨rfl,
    getMissingNodes_no_duplicate_hashes tC6 MapState.Synching false 5 [] 4 10
      [] 100 10 [([0, 1], 7)] MapState.Synching rfl⟩

/-! ## Claim C9: visitNodes -/

theorem descendSync_of_empty {sl : Slot Node} (h : sl.isEmptyBranch = true) :
    descendSync sl = none := by
  cases sl
  · rfl
  all_goals simp [Slot.isEmptyBranch] at h

theorem preFrom_ge (s : List (Slot Node)) (pos : Nat) (h : ¬ pos < 16) :
    preFrom s pos = [] := by
  rw [preFrom, if_neg h]

theorem preFrom_none (s : List (Slot Node)) (pos : Nat) (h : pos < 16)
    (hd : descendSync (slotAt s pos) = none) :
    preFrom s pos = preFrom s (pos + 1) := by
  rw [preFrom, if_pos h]
  split
  · rename_i c hds
    rw [hd] at hds
    cases hds
  · rfl

theorem preFrom_child (s : List (Slot Node)) (pos : Nat) {c : Node}
    (h : pos < 16) (hd : descendSync (slotAt s pos) = some c) :
    preFrom s pos = preorder c ++ preFrom s (pos + 1) := by
  rw [preFrom, if_pos h]
  split
  · rename_i c' hds
    rw [hd] at hds
    cases hds
    rfl
  · rename_i hds
    rw [hd] at hds
    cases hds

/-- Skipping over empty branches does not change the remaining pre-order
visit: the loop's `skipEmpties` is sound for `preFrom`. -/
theorem preFrom_skip (s : List (Slot Node)) :
    ∀ k pos, 15 - pos ≤ k →
      preFrom s (pos + 1) =
        (if skipEmpties s pos ≠ 15 then preFrom s (skipEmpties s pos + 1)
         else []) := by
  intro k
  induction k with
  | zero =>
    intro pos hk
    rw [skipEmpties]
    have hc : ¬ (pos < 15 ∧ (slotAt s (pos + 1)).isEmptyBranch = true) := by
      rintro ⟨h1, _⟩
      omega
    rw [if_neg hc]
    by_cases h15 : pos = 15
    · subst h15
      simp only [ne_eq, not_true_eq_false, if_false]
      exact preFrom_ge s 16 (by omega)
    · rw [if_pos h15]
  | succ k ih =>
    intro pos hk
    rw [skipEmpties]
    by_cases hc : pos < 15 ∧ (slotAt s (pos + 1)).isEmptyBranch = true
    · rw [if_pos hc]
      rw [preFrom_none s (pos + 1) (by omega) (descendSync_of_empty hc.2)]
      exact ih (pos + 1) (by omega)
    · rw [if_neg hc]
      by_cases h15 : pos = 15
      · subst h15
        simp only [ne_eq, not_true_eq_false, if_false]
        exact preFrom_ge s 16 (by omega)
      · rw [if_pos h15]

/-- The pre-order contribution of the saved DFS stack of `visitNodes`. -/
def stackSpec : List (Nat × List (Slot Node)) → List Node
  | [] => []
  | (pos, slots) :: rest => preFrom slots pos ++ stackSpec rest

theorem visitNodesLoop_preorder (f : Node → Bool) (hf : ∀ n, f n = false) :
    ∀ fuel slots pos stack acc l,
      visitNodesLoop f fuel slots pos stack acc = some l →
      l = acc ++ preFrom slots pos ++ stackSpec stack := by
  intro fuel
  induction fuel with
  | zero =>
    intro slots pos stack acc l h
    exact absurd h (by simp [visitNodesLoop])
  | succ n ih =>
    intro slots pos stack acc l h
    simp only [visitNodesLoop] at h
    split at h
    · rename_i hpos
      split at h
      · rename_i hempty
        rw [ih _ _ _ _ _ h, preFrom_none slots pos hpos (descendSync_of_empty hempty)]
      · split at h
        · exact absurd h (by simp)
        · rename_i child hd
          split at h
          · rename_i hft
            rw [hf child] at hft
            simp at hft
          · split at h
            · rename_i la lb
              rw [ih _ _ _ _ _ h, preFrom_child slots pos hpos hd]
              simp [preorder]
            · rename_i ia ib ic islots
              rw [ih _ _ _ _ _ h, preFrom_child slots pos hpos hd]
              have hsk := preFrom_skip slots 15 pos (by omega)
              by_cases h15 : skipEmpties slots pos ≠ 15
              · rw [if_pos h15] at hsk ⊢
                simp [preorder, stackSpec, hsk]
              · rw [if_neg h15] at hsk ⊢
                simp [preorder, stackSpec, hsk]
    · rename_i hpos
      split at h
      · simp only [Option.some.injEq] at h
        subst h
        rw [preFrom_ge _ _ hpos]
        simp [stackSpec]
      · rename_i pos' slots' rest
        rw [ih _ _ _ _ _ h, preFrom_ge _ _ hpos]
        simp [stackSpec]

theorem get?_concat_cases {α : Type} {l : List α} {a x : α} {i : Nat}
    (h : (l ++ [a]).get? i = some x) :
    (i < l.length ∧ l.get? i = some x) ∨ x = a := by
  by_cases hi : i < l.length
  · exact Or.inl ⟨hi, by rwa [List.get?_append hi] at h⟩
  · right
    rw [List.get?_append_right (by omega)] at h
    cases hd : i - l.length with
    | zero =>
      rw [hd] at h
      simp at h
      exact h.symm
    | succ m =>
      rw [hd] at h
      simp at h

theorem visitNodesLoop_stop (f : Node → Bool) :
    ∀ fuel slots pos stack acc l,
      visitNodesLoop f fuel slots pos stack acc = some l →
      (∀ i x, 1 ≤ i → acc.get? i = some x → f x = false) →
      ∀ i x, 1 ≤ i → i + 1 < l.length → l.get? i = some x → f x = false := by
  intro fuel
  induction fuel with
  | zero =>
    intro slots pos stack acc l h
    exact absurd h (by simp [visitNodesLoop])
  | succ n ih =>
    intro slots pos stack acc l h hacc
    simp only [visitNodesLoop] at h
    split at h
    · split at h
      · exact ih _ _ _ _ _ h hacc
      · split at h
        · exact absurd h (by simp)
        · rename_i child hd
          have hacc' : ∀ hfc : f child = false,
              ∀ i x, 1 ≤ i → (acc ++ [child]).get? i = some x → f x = false := by
            intro hfc i x hi hget
            rcases get?_concat_cases hget with ⟨hlt, hg⟩ | rfl
            · exact hacc i x hi hg
            · exact hfc
          split at h
          · -- f child = true: the loop stops and child is the last element
            rename_i hft
            simp only [Option.some.injEq] at h
            subst h
            intro i x hi hlen hget
            rw [List.length_append, List.length_singleton] at hlen
            rcases get?_concat_cases hget with ⟨hlt, hg⟩ | rfl
            · exact hacc i x hi hg
            · -- x = child sits at the last index, excluded by hlen
              have := List.get?_eq_some.mp hget
              obtain ⟨hb, _⟩ := this
              rw [List.length_append, List.length_singleton] at hb
              by_cases hix : i < acc.length
              · rw [List.get?_append hix] at hget
                exact hacc i x hi hget
              · omega
          · rename_i hft
            have hfc : f child = false := by
              cases hfc' : f child
              · rfl
              · exact absurd hfc' hft
            split at h
            · exact ih _ _ _ _ _ h (hacc' hfc)
            · exact ih _ _ _ _ _ h (hacc' hfc)
    · split at h
      · simp only [Option.some.injEq] at h
        subst h
        intro i x hi _ hget
        exact hacc i x hi hget
      · exact ih _ _ _ _ _ h hacc

/-- Claim C9 (amended): `visitNodes` performs a pre-order DFS that invokes
`fn` on every resident node including the root and visits leaves without
descending; it stops as soon as `fn` returns true for any visited node
OTHER THAN THE ROOT — the root's return value is discarded (line 49), so a
true from the root does not stop the traversal.  Part one: if `fn` never
returns true, the invocation sequence is exactly the pre-order listing.
Part two: every invoked node except the first (the root) and possibly the
last had returned false. -/
theorem visitNodes_preorder_and_stop (f : Node → Bool) (root : Node)
    (fuel : Nat) (l : List Node)
    (h : visitNodesList f root fuel = some l) :
    ((∀ n, f n = false) → l = preorder root) ∧
    (∀ i x, 1 ≤ i → i + 1 < l.length → l.get? i = some x → f x = false) := by
  cases root with
  | leaf lh lk =>
    simp only [visitNodesList, Option.some.injEq] at h
    subst h
    constructor
    · intro _
      simp [preorder]
    · intro i x hi hlen
      simp only [List.length_singleton] at hlen
      omega
  | inner a b c s =>
    simp only [visitNodesList] at h
    constructor
    · intro hf
      rw [visitNodesLoop_preorder f hf fuel s 0 [] _ l h]
      simp [preorder, stackSpec]
    · refine visitNodesLoop_stop f fuel s 0 [] _ l h ?_
      intro i x hi hget
      cases i with
      | zero => omega
      | succ m => simp at hget

/-- The two-node tree for the C9 counterexample and witness. -/
def tVN : Node := Node.inner 10 0 none (slot16 0 (Slot.hit 7 (Node.leaf 7 [1])))

/-- Claim C9, counterexample: with a visitor that always returns true, the
traversal of a two-node tree still invokes the visitor twice — the true
returned at the root (the first visited node) does not stop it, because
line 49 discards `function (*root_)`. -/
theorem visitNodes_root_stop_ignored :
    (fun (_ : Node) => true) tVN = true ∧
    (visitNodesList (fun _ => true) tVN 32).map List.length = some 2 ∧
    (2 : Nat) ≠ 1 :=
  ⟨rfl, rfl, by decide⟩

/-- Witness for `visitNodes_preorder_and_stop`: the all-false visitor on
`tVN` yields exactly the pre-order listing. -/
theorem visitNodes_preorder_and_stop_witness :
    ([tVN, Node.leaf 7 [1]] : List Node) = preorder tVN :=
  (visitNodes_preorder_and_stop (fun _ => false) tVN 32 [tVN, Node.leaf 7 [1]]
    rfl).1 (fun _ => rfl)

/-! ## Claim C7: getNodeFat chain descent -/

theorem slotAt_slot16_ne {b i : Nat} (sl : Slot Node) (hne : b ≠ i) :
    slotAt (slot16 b sl) i = Slot.empty := by
  unfold slotAt slot16 empt16
  rw [List.get?_set_ne sl _ hne, List.get?_eq_getElem?, List.getElem?_replicate]
  split <;> rfl

theorem slotAt_slot16_eq {b : Nat} (sl : Slot Node) (hb : b < 16) :
    slotAt (slot16 b sl) b = sl := by
  unfold slotAt slot16 empt16
  rw [List.get?_set_eq_of_lt sl (by simpa using hb)]
  rfl

theorem branchCount_slot16_hit {b : Nat} (ch : Nat) (c : Node) (hb : b < 16) :
    branchCount (slot16 b (Slot.hit ch c)) = 1 := by
  interval_cases b <;> rfl

theorem isV2_of_v2path_none {n : Node} (h : n.v2path = none) :
    n.isV2 = false := by
  cases n with
  | leaf a b => rfl
  | inner a b o s =>
    simp only [Node.v2path] at h
    subst h
    rfl

theorem fatChildren_slot16_after (fl : Bool) (nodeID : List Nat)
    (depth bc b : Nat) (sl : Slot Node) :
    ∀ k i, b < i → 16 - i ≤ k →
      fatChildren fl nodeID depth bc (slot16 b sl) i = some ([], []) := by
  intro k
  induction k with
  | zero =>
    intro i hbi hk
    rw [fatChildren, if_neg (by omega)]
  | succ k ih =>
    intro i hbi hk
    by_cases hi : i < 16
    · rw [fatChildren, if_pos hi]
      have hsl := slotAt_slot16_ne sl (show b ≠ i by omega)
      simp only [hsl, Slot.isEmptyBranch, if_true]
      exact ih (i + 1) (by omega) (by omega)
    · rw [fatChildren, if_neg hi]

theorem fatChildren_slot16_at (fl : Bool) (nodeID : List Nat) (depth : Nat)
    {b ch : Nat} {child : Node} (hb : b < 16) (hinner : child.isInner = true)
    (hv2 : child.v2path = none) :
    fatChildren fl nodeID depth 1 (slot16 b (Slot.hit ch child)) b =
      some ([(child, nodeID ++ [b], depth)], []) := by
  rw [fatChildren, if_pos hb]
  rw [slotAt_slot16_eq _ hb]
  rw [fatChildren_slot16_after fl nodeID depth 1 b (Slot.hit ch child) 16 (b + 1)
    (by omega) (by omega)]
  simp [Slot.isEmptyBranch, descendSync, hv2, hinner]

theorem fatChildren_slot16_hit (fl : Bool) (nodeID : List Nat) (depth : Nat)
    {b ch : Nat} {child : Node} (hb : b < 16) (hinner : child.isInner = true)
    (hv2 : child.v2path = none) :
    ∀ k i, i ≤ b → b - i ≤ k →
      fatChildren fl nodeID depth 1 (slot16 b (Slot.hit ch child)) i =
        some ([(child, nodeID ++ [b], depth)], []) := by
  intro k
  induction k with
  | zero =>
    intro i hib hk
    have : i = b := by omega
    subst this
    exact fatChildren_slot16_at fl nodeID depth hb hinner hv2
  | succ k ih =>
    intro i hib hk
    by_cases hieq : i = b
    · subst hieq
      exact fatChildren_slot16_at fl nodeID depth hb hinner hv2
    · rw [fatChildren, if_pos (by omega)]
      have hsl := slotAt_slot16_ne (Slot.hit ch child) (show b ≠ i by omega)
      simp only [hsl, Slot.isEmptyBranch, if_true]
      exact ih (i + 1) (by omega) (by omega)

theorem mkChain_isInner {t : Node} (ht : t.isInner = true) :
    ∀ bs, (mkChain bs t).isInner = true := by
  intro bs
  cases bs with
  | nil => exact ht
  | cons b bs => rfl

theorem mkChain_v2path {t : Node} (hv : t.v2path = none) :
    ∀ bs, (mkChain bs t).v2path = none := by
  intro bs
  cases bs with
  | nil => exact hv
  | cons b bs => rfl

theorem fatLoop_chain (fl : Bool) {t : Node} (ht : t.isInner = true)
    (hv : t.v2path = none) (hbc : 2 ≤ branchCount t.slots) :
    ∀ bs base acc, (∀ b ∈ bs, b < 16) →
      fatLoop fl (bs.length + 2) [(mkChain bs t, base, 0)] acc =
        some (acc ++ chainEmits base bs t) := by
  intro bs
  induction bs with
  | nil =>
    intro base acc _
    cases t with
    | leaf a b => simp [Node.isInner] at ht
    | inner a b c s =>
      simp only [mkChain, chainEmits, List.length_nil]
      have hcond : ¬ ((0 : Nat) > 0 ∨ branchCount s = 1) := by
        rintro (h0 | h1)
        · omega
        · simp only [Node.slots] at hbc
          omega
      show fatLoop fl (1 + 1) _ _ = _
      simp only [fatLoop]
      rw [if_neg hcond]
  | cons b bs ih =>
    intro base acc hbs
    have hb : b < 16 := hbs b (List.mem_cons_self _ _)
    have hbs' : ∀ x ∈ bs, x < 16 := fun x hx => hbs x (List.mem_cons_of_mem _ hx)
    have hbc1 := branchCount_slot16_hit (mkChain bs t).hash (mkChain bs t) hb
    simp only [mkChain, chainEmits, List.length_cons]
    show fatLoop fl ((bs.length + 2) + 1) _ _ = _
    simp only [fatLoop, hbc1, or_true, if_true]
    rw [fatChildren_slot16_hit fl base 0 hb (mkChain_isInner ht bs)
      (mkChain_v2path hv bs) b 0 (Nat.zero_le b) (by omega)]
    dsimp only
    simp only [List.reverse_cons, List.reverse_nil, List.nil_append,
      List.append_nil]
    rw [ih (base ++ [b]) _ hbs']
    simp

theorem fatChildren_slot16_push_at (fl : Bool) (nodeID : List Nat)
    (depth bc : Nat) {b ch : Nat} {child : Node} (hb : b < 16)
    (hinner : child.isInner = true) (hv2 : child.v2path = none)
    (hcond : depth > 1 ∨ bc = 1) :
    fatChildren fl nodeID depth bc (slot16 b (Slot.hit ch child)) b =
      some ([(child, nodeID ++ [b], if bc > 1 then depth - 1 else depth)], []) := by
  rw [fatChildren, if_pos hb]
  rw [slotAt_slot16_eq _ hb]
  rw [fatChildren_slot16_after fl nodeID depth bc b (Slot.hit ch child) 16
    (b + 1) (by omega) (by omega)]
  simp [Slot.isEmptyBranch, descendSync, hv2, hinner, hcond]

theorem fatChildren_slot16_push (fl : Bool) (nodeID : List Nat)
    (depth bc : Nat) {b ch : Nat} {child : Node} (hb : b < 16)
    (hinner : child.isInner = true) (hv2 : child.v2path = none)
    (hcond : depth > 1 ∨ bc = 1) :
    ∀ k i, i ≤ b → b - i ≤ k →
      fatChildren fl nodeID depth bc (slot16 b (Slot.hit ch child)) i =
        some ([(child, nodeID ++ [b], if bc > 1 then depth - 1 else depth)], []) := by
  intro k
  induction k with
  | zero =>
    intro i hib hk
    have : i = b := by omega
    subst this
    exact fatChildren_slot16_push_at fl nodeID depth bc hb hinner hv2 hcond
  | succ k ih =>
    intro i hib hk
    by_cases hieq : i = b
    · subst hieq
      exact fatChildren_slot16_push_at fl nodeID depth bc hb hinner hv2 hcond
    · rw [fatChildren, if_pos (by omega)]
      have hsl := slotAt_slot16_ne (Slot.hit ch child) (show b ≠ i by omega)
      simp only [hsl, Slot.isEmptyBranch, if_true]
      exact ih (i + 1) (by omega) (by omega)

theorem fatChildren_frame_depth :
    ∀ k (fl : Bool) (nodeID : List Nat) (depth bc : Nat)
      (slots : List (Slot Node)) (i : Nat)
      (frames : List (Node × List Nat × Nat)) (emits : List (List Nat × Node)),
      16 - i ≤ k →
      fatChildren fl nodeID depth bc slots i = some (frames, emits) →
      ∀ c cid d, (c, cid, d) ∈ frames →
        d = if bc > 1 then depth - 1 else depth := by
  intro k
  induction k with
  | zero =>
    intro fl nodeID depth bc slots i frames emits hk h c cid d hmem
    rw [fatChildren, if_neg (by omega)] at h
    simp only [Option.some.injEq, Prod.mk.injEq] at h
    obtain ⟨h1, _⟩ := h
    subst h1
    simp at hmem
  | succ k ih =>
    intro fl nodeID depth bc slots i frames emits hk h c cid d hmem
    by_cases hi : i < 16
    · rw [fatChildren, if_pos hi] at h
      dsimp only at h
      split at h
      · exact ih fl nodeID depth bc slots (i + 1) frames emits (by omega) h
          c cid d hmem
      · split at h
        · exact absurd h (by simp)
        · rename_i child hd
          split at h
          · exact absurd h (by simp)
          · rename_i frames' emits' hrec
            split at h
            · simp only [Option.some.injEq, Prod.mk.injEq] at h
              obtain ⟨h1, h2⟩ := h
              subst h1
              subst h2
              rcases List.mem_cons.mp hmem with heq | hmem'
              · simp only [Prod.mk.injEq] at heq
                exact heq.2.2
              · exact ih fl nodeID depth bc slots (i + 1) frames' emits'
                  (by omega) hrec c cid d hmem'
            · split at h
              · simp only [Option.some.injEq, Prod.mk.injEq] at h
                obtain ⟨h1, _⟩ := h
                subst h1
                exact ih fl nodeID depth bc slots (i + 1) frames' emits'
                  (by omega) hrec c cid d hmem
              · simp only [Option.some.injEq, Prod.mk.injEq] at h
                obtain ⟨h1, _⟩ := h
                subst h1
                exact ih fl nodeID depth bc slots (i + 1) frames' emits'
                  (by omega) hrec c cid d hmem
    · rw [fatChildren, if_neg hi] at h
      simp only [Option.some.injEq, Prod.mk.injEq] at h
      obtain ⟨h1, _⟩ := h
      subst h1
      simp at hmem

/-- Claim C7: in `getNodeFat`, an inner node with `branchCount == 1` has
its single child pushed without decrementing the depth budget, while
inner nodes with more than one populated branch decrement the depth when
descending (every frame pushed by the children loop carries depth
`bc > 1 ? depth - 1 : depth`, lines 394-400); consequently a call with
depth = 0 on a chain of single-child inner nodes still walks and emits
the chain down to the branching point. -/
theorem getNodeFat_single_child_chain :
    (∀ (fl : Bool) (nodeID : List Nat) (depth bc : Nat)
        (slots : List (Slot Node)) (i : Nat)
        (frames : List (Node × List Nat × Nat))
        (emits : List (List Nat × Node)) (c : Node) (cid : List Nat) (d : Nat),
      fatChildren fl nodeID depth bc slots i = some (frames, emits) →
      (c, cid, d) ∈ frames → d = if bc > 1 then depth - 1 else depth) ∧
    (∀ (bs : List Nat) (th tfb : Nat) (ts : List (Slot Node)) (fl : Bool),
      (∀ b ∈ bs, b < 16) → 2 ≤ branchCount ts →
      getNodeFat (mkChain bs (Node.inner th tfb none ts)) [] fl 0 1
          (bs.length + 2) =
        some (some (chainEmits [] bs (Node.inner th tfb none ts)))) := by
  constructor
  · intro fl nodeID depth bc slots i frames emits c cid d h hmem
    exact fatChildren_frame_depth 16 fl nodeID depth bc slots i frames emits
      (by omega) h c cid d hmem
  · intro bs th tfb ts fl hbs hbc
    have ht : (Node.inner th tfb none ts).isInner = true := rfl
    have hv : (Node.inner th tfb none ts).v2path = none := rfl
    have hvroot := mkChain_v2path hv bs
    have hbc0 : ¬ ((mkChain bs (Node.inner th tfb none ts)).isInner = true ∧
        branchCount (mkChain bs (Node.inner th tfb none ts)).slots = 0) := by
      cases bs with
      | nil =>
        simp only [mkChain, Node.slots]
        rintro ⟨_, h0⟩
        omega
      | cons b bs' =>
        have hb : b < 16 := hbs b (List.mem_cons_self _ _)
        simp only [mkChain, Node.slots]
        rintro ⟨_, h0⟩
        rw [branchCount_slot16_hit _ _ hb] at h0
        omega
    simp only [getNodeFat]
    rw [fatWalkGo]
    rw [if_neg (by simp)]
    dsimp only
    rw [if_neg (by simp [isV2_of_v2path_none hvroot])]
    rw [if_neg hbc0]
    rw [fatLoop_chain fl ht hv (by simpa using hbc) bs [] [] hbs]
    simp

/-- The branching node for the C7 witness: an inner node with two
populated leaf branches. -/
def tC7slots : List (Slot Node) :=
  (empt16.set 2 (Slot.hit 5 (Node.leaf 5 [2]))).set 9 (Slot.hit 6 (Node.leaf 6 [9]))

/-- The branching node for the C7 witness. -/
def tC7 : Node := Node.inner 30 0 none tC7slots

/-- Witness for `getNodeFat_single_child_chain`: a fan-out (bc = 3) at
depth 5 pushes its child with depth 4, and a one-link chain at depth 0 is
walked and emitted down to the branching node. -/
theorem getNodeFat_single_child_chain_witness :
    ((4 : Nat) = if 3 > 1 then 5 - 1 else 5) ∧
    getNodeFat (mkChain [3] tC7) [] true 0 1 3 =
      some (some (chainEmits [] [3] tC7)) :=
  ⟨getNodeFat_single_child_chain.1 true [] 5 3 (slot16 2 (Slot.hit 9 tC7)) 0
      [(tC7, [2], 4)] [] tC7 [2] 4
      (@fatChildren_slot16_push true [] 5 3 2 9 tC7 (by omega) rfl rfl
        (Or.inl (by omega)) 16 0 (by omega) (by omega))
      (List.mem_singleton.mpr rfl),
    getNodeFat_single_child_chain.2 [3] 30 0 tC7slots true (by decide)
      (by decide)⟩

/-! ## Claim C8: the getFetchPack bound -/

/-- Visitor-state invariant while the traversal is allowed to continue:
emissions so far plus the remaining budget equal the original `max`,
which is still positive. -/
def FpInv (m0 : Int) (s : Int × List (Nat × Node)) : Prop :=
  s.1 + s.2.length = m0 ∧ 1 ≤ s.1

/-- Visitor-state invariant at the end of the traversal: the budget may
have just reached 0. -/
def FpFin (m0 : Int) (s : Int × List (Nat × Node)) : Prop :=
  s.1 + s.2.length = m0 ∧ 0 ≤ s.1

theorem fpVisit_fin (il : Bool) (m0 : Int) (s : Int × List (Nat × Node))
    (n : Node) (h : FpInv m0 s) : FpFin m0 (fpVisit il s n).1 := by
  obtain ⟨h1, h2⟩ := h
  unfold fpVisit
  split
  · dsimp only
    refine ⟨?_, by omega⟩
    simp only [List.length_append, List.length_singleton]
    push_cast
    push_cast at h1
    omega
  · dsimp only
    exact ⟨h1, by omega⟩

theorem fpVisit_cont (il : Bool) (m0 : Int) (s : Int × List (Nat × Node))
    (n : Node) (h : FpInv m0 s) (hflag : (fpVisit il s n).2 = true) :
    FpInv m0 (fpVisit il s n).1 := by
  obtain ⟨h1, h2⟩ := h
  by_cases hc : (il || n.isInner) = true
  · rw [fpVisit, if_pos hc] at hflag ⊢
    dsimp only at hflag ⊢
    simp only [Bool.not_eq_true', decide_eq_false_iff_not, not_le] at hflag
    refine ⟨?_, by omega⟩
    simp only [List.length_append, List.length_singleton]
    push_cast
    push_cast at h1
    omega
  · rw [fpVisit, if_neg hc]
    exact ⟨h1, h2⟩

theorem vdChildren_fp (haveT : Option Node) (il : Bool) (hfuel : Nat)
    (slots : List (Slot Node)) (nodeID : List Nat) (m0 : Int) :
    ∀ k i s out, 16 - i ≤ k →
      vdChildren haveT (fpVisit il) hfuel slots nodeID i s = some out →
      FpInv m0 s →
      (∀ s', out = Sum.inl s' → FpFin m0 s') ∧
      (∀ s' pushes, out = Sum.inr (s', pushes) → FpInv m0 s') := by
  intro k
  induction k with
  | zero =>
    intro i s out hk h hinv
    rw [vdChildren, dif_neg (by omega)] at h
    simp only [Option.some.injEq] at h
    subst h
    refine ⟨fun s' heq => absurd heq (by simp), ?_⟩
    intro s' pushes heq
    simp only [Sum.inr.injEq, Prod.mk.injEq] at heq
    obtain ⟨h1, _⟩ := heq
    subst h1
    exact hinv
  | succ k ih =>
    intro i s out hk h hinv
    by_cases hi : i < 16
    · rw [vdChildren, dif_pos hi] at h
      dsimp only at h
      split at h
      · exact ih (i + 1) s out (by omega) h hinv
      · split at h
        · exact absurd h (by simp)
        · rename_i next hd
          split at h
          · -- inner child
            split at h
            · exact absurd h (by simp)
            · exact ih (i + 1) s out (by omega) h hinv
            · split at h
              · exact absurd h (by simp)
              · rename_i s1 heqr
                have hin := ih (i + 1) s _ (by omega) heqr hinv
                simp only [Option.some.injEq] at h
                subst h
                refine ⟨?_, fun s' pushes heq => absurd heq (by simp)⟩
                intro s' heq
                simp only [Sum.inl.injEq] at heq
                subst heq
                exact hin.1 s1 rfl
              · rename_i s1 pushes1 heqr
                have hin := ih (i + 1) s _ (by omega) heqr hinv
                simp only [Option.some.injEq] at h
                subst h
                refine ⟨fun s' heq => absurd heq (by simp), ?_⟩
                intro s' pushes heq
                simp only [Sum.inr.injEq, Prod.mk.injEq] at heq
                obtain ⟨h1, _⟩ := heq
                subst h1
                exact hin.2 s1 pushes1 rfl
          · -- leaf child
            split at h
            · exact absurd h (by simp)
            · exact ih (i + 1) s out (by omega) h hinv
            · split at h
              · rename_i hflag
                exact ih (i + 1) _ out (by omega) h
                  (fpVisit_cont il m0 s next hinv hflag)
              · simp only [Option.some.injEq] at h
                subst h
                refine ⟨?_, fun s' pushes heq => absurd heq (by simp)⟩
                intro s' heq
                simp only [Sum.inl.injEq] at heq
                subst heq
                exact fpVisit_fin il m0 s next hinv
    · rw [vdChildren, dif_neg hi] at h
      simp only [Option.some.injEq] at h
      subst h
      refine ⟨fun s' heq => absurd heq (by simp), ?_⟩
      intro s' pushes heq
      simp only [Sum.inr.injEq, Prod.mk.injEq] at heq
      obtain ⟨h1, _⟩ := heq
      subst h1
      exact hinv

theorem vdLoop_fp (haveT : Option Node) (il : Bool) (hfuel : Nat) (m0 : Int) :
    ∀ fuel stk s sOut, vdLoop haveT (fpVisit il) hfuel fuel stk s = some sOut →
      FpInv m0 s → FpFin m0 sOut := by
  intro fuel
  induction fuel with
  | zero =>
    intro stk s sOut h
    exact absurd h (by simp [vdLoop])
  | succ n ih =>
    intro stk s sOut h hinv
    cases stk with
    | nil =>
      simp only [vdLoop, Option.some.injEq] at h
      subst h
      exact ⟨hinv.1, by have := hinv.2; omega⟩
    | cons top rest =>
      obtain ⟨node, nodeID⟩ := top
      simp only [vdLoop] at h
      split at h
      · rename_i hstop
        simp only [Option.some.injEq] at h
        subst h
        exact fpVisit_fin il m0 s node hinv
      · rename_i hcont
        have hflag : (fpVisit il s node).2 = true := by
          cases hfv : (fpVisit il s node).2
          · rw [hfv] at hcont
            simp at hcont
          · rfl
        have hinv' := fpVisit_cont il m0 s node hinv hflag
        split at h
        · exact absurd h (by simp)
        · rename_i s2 heqc
          have := (vdChildren_fp haveT il hfuel node.slots nodeID m0 16 0 _ _
            (by omega) heqc hinv').1 s2 rfl
          simp only [Option.some.injEq] at h
          subst h
          exact this
        · rename_i s2 pushes heqc
          have := (vdChildren_fp haveT il hfuel node.slots nodeID m0 16 0 _ _
            (by omega) heqc hinv').2 s2 pushes rfl
          exact ih _ _ _ h this

theorem visitDifferences_fp (root : Node) (haveT : Option Node) (il : Bool)
    (m0 : Int) (fuel hfuel : Nat) (sOut : Int × List (Nat × Node))
    (h : visitDifferences root haveT (fpVisit il) (m0, []) fuel hfuel = some sOut)
    (hmax : 1 ≤ m0) : FpFin m0 sOut := by
  have hinv : FpInv m0 (m0, []) := ⟨by simp, hmax⟩
  unfold visitDifferences at h
  split at h
  · simp only [Option.some.injEq] at h
    subst h
    exact ⟨hinv.1, by omega⟩
  · split at h
    · simp only [Option.some.injEq] at h
      subst h
      exact ⟨hinv.1, by omega⟩
    · split at h
      · -- leaf root
        split at h
        · exact absurd h (by simp)
        · simp only [Option.some.injEq] at h
          subst h
          exact ⟨hinv.1, by omega⟩
        · simp only [Option.some.injEq] at h
          subst h
          exact fpVisit_fin il m0 (m0, []) _ hinv
      · rename_i nh nfb nv ns
        exact vdLoop_fp haveT il hfuel m0 fuel _ _ _ h hinv

/-- Claim C8 (amended): for every pair of maps of the same format version
and every max with 1 ≤ max, `getFetchPack(have, includeLeaves, max, sink)`
invokes the sink at most max times.  (For max ≤ 0 the claim fails: the
first matching node is still emitted before `--max <= 0` is checked, see
the counterexample.) -/
theorem getFetchPack_length_le_max (root : Node) (haveM : Option Node)
    (thisV2 haveV2 : Bool) (il : Bool) (max : Int) (fuel hfuel : Nat)
    (out : List (Nat × Node)) (hmax : 1 ≤ max)
    (h : getFetchPack root haveM thisV2 haveV2 il max fuel hfuel = some out) :
    (out.length : Int) ≤ max := by
  unfold getFetchPack at h
  split at h
  · simp only [Option.some.injEq] at h
    subst h
    simp
    omega
  · cases hv : visitDifferences root haveM (fpVisit il) (max, []) fuel hfuel with
    | none => rw [hv] at h; exact absurd h (by simp)
    | some s' =>
      rw [hv] at h
      simp only [Option.map_some', Option.some.injEq] at h
      subst h
      have := visitDifferences_fp root haveM il max fuel hfuel s' hv hmax
      obtain ⟨h1, h2⟩ := this
      omega

/-- Claim C8, counterexample: with max = 0 against a missing single-leaf
map, the sink is invoked once — `--max` (a C++ int) makes max negative and
only then stops the traversal (lines 702-703). -/
theorem getFetchPack_max_zero_emits :
    (getFetchPack (Node.leaf 1 [0]) none false false true 0 10 10).map
        List.length = some 1 ∧
    ¬ ((1 : Int) ≤ 0) :=
  ⟨rfl, by decide⟩

/-- Witness for `getFetchPack_length_le_max` at max = 1. -/
theorem getFetchPack_length_le_max_witness :
    getFetchPack (Node.leaf 1 [0]) none false false true 1 10 10 =
      some [(1, Node.leaf 1 [0])] ∧
    (([(1, Node.leaf 1 [0])] : List (Nat × Node)).length : Int) ≤ 1 :=
  ⟨rfl,
    getFetchPack_length_le_max (Node.leaf 1 [0]) none false false true 1 10 10
      [(1, Node.leaf 1 [0])] (by decide) rfl⟩

end SHAMapSync
